import Mathlib

/-!
# Verification of orkes-io/go-parse

Shallow embedding of the go-parse repository: the keyword trie
(`KeywordTrie`, package `parse`), the general tokenizer (`Tokenize`,
`ast.go`), the boolean grammar engine (package `bool`/`bools`), a
spec-modelled comparison grammar engine (package `comp`, whose
implementation file is not in the sources), the composition protocol
(`AST.Parse`), and interpreter fallback (`Interpreter.WithFallback`).

Go machine details that matter here: `len(s)` on a Go string is a UTF-8
byte count (modelled by `goLen`), `unicode.IsSpace` is modelled by
`goIsSpace` on the characters the repository exercises, and
`strings.ToLower` is modelled by `goToLower` (exact on ASCII and on
the width-changing simple mappings U+0130 and U+212A; Go's folding is
not byte-length preserving, and nothing below assumes it is).
-/

/-- Go `unicode.IsSpace` restricted to the Latin-1 range (the full
function additionally accepts some higher Unicode space codepoints;
the repository only exercises ASCII whitespace). -/
def goIsSpace (c : Char) : Bool :=
  c = ' ' || c = '\t' || c = '\n' || c.toNat = 11 || c.toNat = 12 ||
  c.toNat = 13 || c.toNat = 0x85 || c.toNat = 0xA0

/-- Simple case mapping for one character, following Go
`unicode.ToLower` on the codepoints this development exercises: ASCII
A-Z (codepoints 65..90) move down to a-z, and the two simple mappings
that change UTF-8 width are included — the Latin capital letter I with
dot above (U+0130, two bytes) lowers to plain `i` (one byte) and the
Kelvin sign (U+212A, three bytes) lowers to plain `k` (one byte).
Other non-ASCII letters, which Go also lowers, are left unchanged
here; nothing proved below depends on the mapping outside the listed
codepoints, and in particular no property of the form "folding
preserves byte length" is assumed anywhere (it is false of Go). -/
def goToLowerChar (c : Char) : Char :=
  if 65 ≤ c.toNat ∧ c.toNat ≤ 90 then Char.ofNat (c.toNat + 32)
  else if c.toNat = 0x130 then 'i'
  else if c.toNat = 0x212A then 'k'
  else c

/-- Go `strings.ToLower`, applied characterwise (Go's simple case
mapping is per-rune; see `goToLowerChar` for the covered codepoints).
Note that Go's folding can change a string's byte length — `"İ"`
(two bytes) lowers to `"i"` (one byte) — which matters for `init`'s
parenthesis length checks, performed before folding. -/
def goToLower (s : String) : String :=
  String.mk (s.data.map goToLowerChar)

/-- Go `len` on a string: the number of UTF-8 bytes. -/
def goLen (s : String) : Nat :=
  s.data.foldl (fun n c => n + c.utf8Size) 0

/-- The Go error values of `ast.go` (`ErrConfig`, `ErrParse`, `ErrEval`,
`ErrUnknownAST`), together with `fmt.Errorf("%w: ...")` wrapping.
`fuelExhausted` is an artifact of the embedding's fuelled recursion and
never arises on the runs proved about below. -/
inductive GoErr where
  | config
  | parse
  | eval
  | unknownAST
  | fuelExhausted
  | wrap (msg : String) (inner : GoErr)
deriving DecidableEq, Repr

/-- Go `errors.Is`: an error matches a target if it equals it or its
wrapped chain reaches it. -/
def errorsIs : GoErr → GoErr → Bool
  | e@(.wrap _ inner), target => e = target || errorsIs inner target
  | e, target => e = target

/-! ## KeywordTrie (package `parse`)

Source: the `KeywordTrie` implementation concatenated into
`src/bool/bool_test.go` (package `parse`). The Go struct keeps two
parallel slices `runes []rune` and `children []*KeywordTrie`, always
appended in lockstep; the embedding pairs them into one edge list. -/

inductive KeywordTrie where
  | node (edges : List (Char × KeywordTrie)) (leaf : String)

/-- The `leaf` field. -/
def KeywordTrie.leafOf : KeywordTrie → String
  | .node _ lf => lf

/-- The paired `runes`/`children` fields. -/
def KeywordTrie.edgesOf : KeywordTrie → List (Char × KeywordTrie)
  | .node es _ => es

/-- The `for idx, r := range t.runes` scan of `Match`/`add`: the first
edge labelled `c`, if any. -/
def findEdge (c : Char) : List (Char × KeywordTrie) → Option KeywordTrie
  | [] => none
  | (r, ch) :: es => if r = c then some ch else findEdge c es

/-- `(*KeywordTrie).Match`: descend along the stream; a failed or
empty-result descent falls back to the current node's `leaf`. -/
def trieMatch : List Char → KeywordTrie → String
  | [], t => t.leafOf
  | c :: rest, t =>
    match findEdge c t.edgesOf with
    | some ch =>
      let r := trieMatch rest ch
      if r = "" then t.leafOf else r
    | none => t.leafOf

/-- `Match` with the Go argument order. -/
def KeywordTrie.Match (t : KeywordTrie) (stream : List Char) : String :=
  trieMatch stream t

/-- `(*KeywordTrie).MatchStr`. -/
def KeywordTrie.MatchStr (t : KeywordTrie) (str : String) : String :=
  t.Match str.data

/-- `(*KeywordTrie).Contains`. -/
def KeywordTrie.Contains (t : KeywordTrie) (str : String) : Bool :=
  t.Match str.data = str

/-- Replace the first `c`-labelled edge's child (Go: recurse into
`children[idx]` in place), appending a fresh edge when absent. -/
def setEdge (c : Char) (ch : KeywordTrie) :
    List (Char × KeywordTrie) → List (Char × KeywordTrie)
  | [] => [(c, ch)]
  | (r, x) :: es => if r = c then (r, ch) :: es else (r, x) :: setEdge c ch es

/-- `(*KeywordTrie).add`: walk/extend the path `keyword`, recording
`orig` at its end. The Go method mutates the first matching child (or an
appended fresh child); the embedding rebuilds that one edge. -/
def trieAdd : List Char → String → KeywordTrie → KeywordTrie
  | [], orig, t => .node t.edgesOf orig
  | c :: rest, orig, t =>
    let old := (findEdge c t.edgesOf).getD (.node [] "")
    .node (setEdge c (trieAdd rest orig old) t.edgesOf) t.leafOf

/-- `(*KeywordTrie).Add`. -/
def KeywordTrie.Add (t : KeywordTrie) (keyword : String) : KeywordTrie :=
  trieAdd keyword.data keyword t

/-- `(*KeywordTrie).Count`: number of nodes recording a keyword. -/
def KeywordTrie.Count : KeywordTrie → Nat
  | .node es lf =>
    (if lf = "" then 0 else 1) +
      (es.attach.map (fun e => e.1.2.Count)).sum
decreasing_by
  have := List.sizeOf_lt_of_mem e.2
  cases e : e.1 with
  | mk a b => simp_all; omega

/-- A `KeywordTrie{}` zero value. -/
def emptyTrie : KeywordTrie := .node [] ""

/-- Building a trie by `Add`ing each keyword in order. -/
def addAll (ks : List String) : KeywordTrie :=
  ks.foldl KeywordTrie.Add emptyTrie

/-! ## AST (shared node types)

Go exposes an open interface `parse.AST`; the concrete node types of the
repository are `parse.Unparsed`, `bools.BinExpr`, `bools.UnaryExpr`,
`comp.EqualExpr` and `comp.OrdinalExpr`. Following the closed-variant
reimplementation the spec prescribes, they become one inductive; the
constructor `extLeaf` stands for an external (caller-supplied) leaf node
type with no children and nothing left to resolve, as permitted by the
interface's documented extensibility. -/

/-- `bools.Op` (`OpAnd`, `OpOr`, `OpNot`). -/
inductive BoolOp where
  | opAnd
  | opOr
  | opNot
deriving DecidableEq, Repr

/-- `comp.Op` (`OpEqual`, `OpNotEqual`, `OpGreater`, `OpGreaterOrEqual`,
`OpLess`, `OpLessOrEqual`). -/
inductive CompOp where
  | opEqual
  | opNotEqual
  | opGreater
  | opGreaterOrEqual
  | opLess
  | opLessOrEqual
deriving DecidableEq, Repr

/-- The closed union of the repository's `parse.AST` node types. -/
inductive AST where
  | unparsed (contents : List String)
  | binExpr (lhs : AST) (rhs : AST) (op : BoolOp)
  | unaryExpr (op : BoolOp) (expr : AST)
  | equalExpr (lhs : AST) (rhs : AST) (op : CompOp)
  | ordinalExpr (lhs : AST) (rhs : AST) (op : CompOp)
  | extLeaf (tag : String)
deriving DecidableEq, Repr

/-- A `parse.Parser`: `Parse(tokens []string) (AST, error)`. -/
def ParserFn : Type := List String → Except GoErr AST

/-! ## The general tokenizer (`parse.Tokenize`, `ast.go`)

The scan keeps a pending run `substr`; parentheses and whitespace flush
it, and after each other codepoint is appended the whole run is emitted
as one token exactly when it equals a keyword (`isKeyword(string(substr))`). -/

/-- Flush the pending literal run (`if len(substr) != 0 { append }`). -/
def flushRun (substr : List Char) : List String :=
  if substr.isEmpty then [] else [String.mk substr]

/-- The scan loop of `Tokenize`, with the pending run as an argument. -/
def tokenizeLoop (op cl : Char) (isKeyword : String → Bool) :
    List Char → List Char → List String
  | [], substr => flushRun substr
  | r :: rest, substr =>
    if r = op ∨ r = cl then
      flushRun substr ++ String.mk [r] :: tokenizeLoop op cl isKeyword rest []
    else if goIsSpace r then
      flushRun substr ++ tokenizeLoop op cl isKeyword rest []
    else
      let s := substr ++ [r]
      if isKeyword (String.mk s) then
        String.mk s :: tokenizeLoop op cl isKeyword rest []
      else
        tokenizeLoop op cl isKeyword rest s

/-- `parse.Tokenize(str, open, close, isKeyword)`. -/
def Tokenize (str : String) (op cl : Char) (isKeyword : String → Bool) :
    List String :=
  tokenizeLoop op cl isKeyword str.data []

/-- One codepoint of the scan, phrased as a state-machine step over
`(emitted tokens, pending run)`: parentheses and whitespace flush the
run; any other codepoint is appended to the run, and the entire updated
run is emitted as a single token exactly when it equals a keyword. -/
def tokStep (op cl : Char) (isKeyword : String → Bool)
    (st : List String × List Char) (r : Char) : List String × List Char :=
  let (res, substr) := st
  if r = op ∨ r = cl then
    (res ++ flushRun substr ++ [String.mk [r]], [])
  else if goIsSpace r then
    (res ++ flushRun substr, [])
  else
    let s := substr ++ [r]
    if isKeyword (String.mk s) then (res ++ [String.mk s], []) else (res, s)

/-- The tokenizer as a fold of `tokStep`, flushing the final run. -/
def tokenizeFold (str : String) (op cl : Char) (isKeyword : String → Bool) :
    List String :=
  let (res, substr) := str.data.foldl (tokStep op cl isKeyword) ([], [])
  res ++ flushRun substr

/-! ## Boolean engine (package `bool`/`bools`, `src/bool/bool.go`) -/

/-- `bool.Token` (`And`, `Or`, `Not`, `OpenParen`, `CloseParen`). -/
inductive BToken where
  | and
  | or
  | not
  | openParen
  | closeParen
deriving DecidableEq, Repr

/-- A boolean `Parser` after `init`: the (possibly case-folded) token
mapping, the keyword set derived from it, and the case flag. The Go
`keywords` map is kept as a duplicate-free list. -/
structure BParser where
  config : BToken → String
  keywords : List String
  caseInsensitive : Bool

/-- The five configured surface strings, in declaration order. -/
def configStrings (cfg : BToken → String) : List String :=
  [cfg .and, cfg .or, cfg .not, cfg .openParen, cfg .closeParen]

/-- The token mapping after `init`'s case-folding step: lowered when
the parser is case-insensitive, unchanged otherwise. -/
def foldedCfg (ci : Bool) (cfg : BToken → String) : BToken → String :=
  fun t => if ci then goToLower (cfg t) else cfg t

/-- `(*Parser).init`: validate parentheses, case-fold the mapping when
requested, build the keyword set, and reject collisions. Go's
`len(str)` counts UTF-8 bytes (`goLen`). -/
def initB (cfg : BToken → String) (caseInsensitive : Bool) :
    Except GoErr BParser :=
  if goLen (cfg .openParen) ≠ 1 ∨ goLen (cfg .closeParen) ≠ 1 then
    .error (.wrap "OpenParen and CloseParen must each have length 1" .config)
  else if cfg .openParen = cfg .closeParen then
    .error (.wrap "OpenParen and CloseParen must each be distinct" .config)
  else
    let cfg2 := foldedCfg caseInsensitive cfg
    let kws := (configStrings cfg2).dedup
    if kws.length ≠ 5 then
      .error (.wrap "token collision detected" .config)
    else
      .ok ⟨cfg2, kws, caseInsensitive⟩

/-- `NewParser()`'s default configuration. -/
def defaultBConfig : BToken → String
  | .and => "AND"
  | .or => "OR"
  | .not => "NOT"
  | .openParen => "("
  | .closeParen => ")"

/-- The default boolean parser, as produced by `NewParser()`. -/
def boolP : BParser :=
  ⟨defaultBConfig, ["AND", "OR", "NOT", "(", ")"], false⟩

/-- `(*Parser).isKeyword`. -/
def isKeywordB (p : BParser) (s : String) : Bool :=
  s ∈ p.keywords

/-- The scan loop of `(*Parser).tokenize` (`bool.go`): identical to the
`Tokenize` loop, except that parentheses are recognised by comparing
`string(runes[i])` with the configured parenthesis strings. -/
def tokenizeLoopB (p : BParser) : List Char → List Char → List String
  | [], substr => flushRun substr
  | r :: rest, substr =>
    if String.mk [r] = p.config .openParen ∨
        String.mk [r] = p.config .closeParen then
      flushRun substr ++ String.mk [r] :: tokenizeLoopB p rest []
    else if goIsSpace r then
      flushRun substr ++ tokenizeLoopB p rest []
    else
      let s := substr ++ [r]
      if isKeywordB p (String.mk s) then
        String.mk s :: tokenizeLoopB p rest []
      else
        tokenizeLoopB p rest s

/-- `(*Parser).tokenize`: case-fold the whole input when configured,
then scan. -/
def tokenizeB (p : BParser) (str : String) : List String :=
  let str2 := if p.caseInsensitive then goToLower str else str
  tokenizeLoopB p str2.data []

/-- `(*Parser).match(token)`: consume the current token when it equals
the configured surface string. The Go index cursor `p.curr` is embedded
as the suffix of unconsumed tokens. -/
def matchTok (p : BParser) (tok : BToken) : List String → Option (List String)
  | [] => none
  | t :: rest => if t = p.config tok then some rest else none

/-- `(*Parser).parseRest`: collect the maximal run of non-keyword
tokens; an empty run is `"unexpected end of expression"`. -/
def pRestB (p : BParser) (ts : List String) :
    Except GoErr (AST × List String) :=
  let pre := ts.takeWhile (fun t => !isKeywordB p t)
  if pre.isEmpty then
    .error (.wrap "unexpected end of expression" .parse)
  else
    .ok (.unparsed pre, ts.dropWhile (fun t => !isKeywordB p t))

/-- The five productions of the boolean grammar. -/
inductive BProd where
  | expr
  | and
  | or
  | not
  | parens
deriving DecidableEq, Repr

/-- The mutually recursive productions `parseExpr`/`parseAnd`/`parseOr`/
`parseNot`/`parseParens` of `bool.go`, combined into one function on a
production tag and driven by fuel so that the recursion is structural.
Every cross-production call decrements the fuel; `parseB` is always run
with enough fuel that `fuelExhausted` is unreachable (each level of
recursion into `parseAnd`, `parseOr` or `parseExpr`-under-parentheses
consumes at least one token). -/
def runB (p : BParser) : Nat → BProd → List String →
    Except GoErr (AST × List String)
  | 0, _, _ => .error .fuelExhausted
  | f + 1, .expr, ts => runB p f .and ts
  | f + 1, .and, ts => do
    let (lhs, r1) ← runB p f .or ts
    match matchTok p .and r1 with
    | some r2 => do
      let (rhs, r3) ← runB p f .and r2
      pure (.binExpr lhs rhs .opAnd, r3)
    | none => pure (lhs, r1)
  | f + 1, .or, ts => do
    let (lhs, r1) ← runB p f .not ts
    match matchTok p .or r1 with
    | some r2 => do
      let (rhs, r3) ← runB p f .or r2
      pure (.binExpr lhs rhs .opOr, r3)
    | none => pure (lhs, r1)
  | f + 1, .not, ts =>
    match matchTok p .not ts with
    | some r => do
      let (rest, r2) ← runB p f .parens r
      pure (.unaryExpr .opNot rest, r2)
    | none => runB p f .parens ts
  | f + 1, .parens, ts =>
    match matchTok p .openParen ts with
    | some r => do
      let (a, r2) ← runB p f .expr r
      match matchTok p .closeParen r2 with
      | some r3 => pure (a, r3)
      | none => .error (.wrap "expected close paren" .parse)
    | none => pRestB p ts

/-- Fuel that is always sufficient: the production ladder is five deep
and every wrap-around consumes a token. -/
def fuelFor (ts : List String) : Nat := 8 * ts.length + 8

/-- `(*Parser).Parse` after tokenization: run `parseExpr` on the tokens
and require that every token was consumed. -/
def ParseTokensB (p : BParser) (ts : List String) : Except GoErr AST := do
  let (ast, rest) ← runB p (fuelFor ts) .expr ts
  match rest with
  | [] => pure ast
  | t :: _ => .error (.wrap ("expected end of expression, found " ++ t) .parse)

/-- `(*Parser).Parse(str)` (called `ParseStr` in later revisions):
tokenize, then parse. -/
def ParseB (p : BParser) (str : String) : Except GoErr AST :=
  ParseTokensB p (tokenizeB p str)

/-! ## Comparison engine (package `comp`)

Modelled from the spec: the implementation file of package `comp` is
not among the sources (only `comp_test.go` is); the grammar below is
§4.4 of the spec (also the package documentation reproduced in the
repository README):

    expr    -> equal
    equal   -> ordinal ( '!=' | '==' ) ordinal | ordinal
    ordinal -> term ( '>=' | '>' | '<' | '<=' ) term | term
    term    -> '(' expr ')' | unparsed

with a tokenizer that, per §4.2, attempts a longest keyword-trie match
at each scan position and advances past the full matched length. -/

/-- `comp.Token`. -/
inductive CToken where
  | equal
  | notEqual
  | greater
  | greaterOrEqual
  | less
  | lessOrEqual
  | openParen
  | closeParen
deriving DecidableEq, Repr

/-- Modelled from the spec: a comparison `Parser` after construction —
the token mapping, the keyword set, and the keyword trie built from the
configured surface strings. -/
structure CParser where
  config : CToken → String
  keywords : List String
  trie : KeywordTrie

/-- The operator surface strings of the default comparison parser. -/
def defaultCConfig : CToken → String
  | .equal => "=="
  | .notEqual => "!="
  | .greater => ">"
  | .greaterOrEqual => ">="
  | .less => "<"
  | .lessOrEqual => "<="
  | .openParen => "("
  | .closeParen => ")"

/-- The default comparison parser, as produced by `comp.NewParser()`. -/
def compP : CParser :=
  ⟨defaultCConfig, ["==", "!=", ">", ">=", "<", "<=", "(", ")"],
    addAll ["==", "!=", ">", ">=", "<", "<=", "(", ")"]⟩

/-- The comparison parser's `isKeyword`. -/
def isKeywordC (p : CParser) (s : String) : Bool :=
  s ∈ p.keywords

/-- Modelled from the spec (§4.2): the comparison tokenizer's scan. At
each position that is not a parenthesis and not whitespace, attempt a
longest trie match starting at the current position; on a match, flush
the pending run, emit the matched keyword, and advance past its full
length; otherwise append the codepoint to the pending run. The fuel is
the count of remaining codepoints, which every step strictly decreases,
keeping the recursion structural. -/
def tokenizeLoopC (p : CParser) : Nat → List Char → List Char → List String
  | 0, _, substr => flushRun substr
  | _ + 1, [], substr => flushRun substr
  | f + 1, c :: rest, substr =>
    if String.mk [c] = p.config .openParen ∨
        String.mk [c] = p.config .closeParen then
      flushRun substr ++ String.mk [c] :: tokenizeLoopC p f rest []
    else if goIsSpace c then
      flushRun substr ++ tokenizeLoopC p f rest []
    else
      let kw := p.trie.Match (c :: rest)
      if kw = "" then
        tokenizeLoopC p f rest (substr ++ [c])
      else
        flushRun substr ++
          kw :: tokenizeLoopC p f ((c :: rest).drop kw.data.length) []

/-- Modelled from the spec: the comparison tokenizer. -/
def tokenizeC (p : CParser) (str : String) : List String :=
  tokenizeLoopC p str.data.length str.data []

/-- The comparison parser's `match`. -/
def matchTokC (p : CParser) (tok : CToken) :
    List String → Option (List String)
  | [] => none
  | t :: rest => if t = p.config tok then some rest else none

/-- The comparison parser's `parseRest` (maximal run of non-keyword
tokens, non-empty). -/
def pRestC (p : CParser) (ts : List String) :
    Except GoErr (AST × List String) :=
  let pre := ts.takeWhile (fun t => !isKeywordC p t)
  if pre.isEmpty then
    .error (.wrap "unexpected end of expression" .parse)
  else
    .ok (.unparsed pre, ts.dropWhile (fun t => !isKeywordC p t))

/-- The four productions of the comparison grammar. -/
inductive CProd where
  | expr
  | equal
  | ordinal
  | term
deriving DecidableEq, Repr

/-- Modelled from the spec (§4.4): the comparison grammar's recursive
descent, fuelled like `runB`. `equal` and `ordinal` each consume at
most one operator at their level (no self-recursion after the right
operand). -/
def runC (p : CParser) : Nat → CProd → List String →
    Except GoErr (AST × List String)
  | 0, _, _ => .error .fuelExhausted
  | f + 1, .expr, ts => runC p f .equal ts
  | f + 1, .equal, ts => do
    let (lhs, r1) ← runC p f .ordinal ts
    match matchTokC p .notEqual r1 with
    | some r2 => do
      let (rhs, r3) ← runC p f .ordinal r2
      pure (.equalExpr lhs rhs .opNotEqual, r3)
    | none =>
      match matchTokC p .equal r1 with
      | some r2 => do
        let (rhs, r3) ← runC p f .ordinal r2
        pure (.equalExpr lhs rhs .opEqual, r3)
      | none => pure (lhs, r1)
  | f + 1, .ordinal, ts => do
    let (lhs, r1) ← runC p f .term ts
    match matchTokC p .greaterOrEqual r1 with
    | some r2 => do
      let (rhs, r3) ← runC p f .term r2
      pure (.ordinalExpr lhs rhs .opGreaterOrEqual, r3)
    | none =>
      match matchTokC p .greater r1 with
      | some r2 => do
        let (rhs, r3) ← runC p f .term r2
        pure (.ordinalExpr lhs rhs .opGreater, r3)
      | none =>
        match matchTokC p .less r1 with
        | some r2 => do
          let (rhs, r3) ← runC p f .term r2
          pure (.ordinalExpr lhs rhs .opLess, r3)
        | none =>
          match matchTokC p .lessOrEqual r1 with
          | some r2 => do
            let (rhs, r3) ← runC p f .term r2
            pure (.ordinalExpr lhs rhs .opLessOrEqual, r3)
          | none => pure (lhs, r1)
  | f + 1, .term, ts =>
    match matchTokC p .openParen ts with
    | some r => do
      let (a, r2) ← runC p f .expr r
      match matchTokC p .closeParen r2 with
      | some r3 => pure (a, r3)
      | none => .error (.wrap "expected close paren" .parse)
    | none => pRestC p ts

/-- Modelled from the spec: parse a token sequence with the comparison
grammar, requiring every token consumed. -/
def ParseTokensC (p : CParser) (ts : List String) : Except GoErr AST := do
  let (ast, rest) ← runC p (fuelFor ts) .expr ts
  match rest with
  | [] => pure ast
  | t :: _ => .error (.wrap ("expected end of expression, found " ++ t) .parse)

/-- Modelled from the spec: `comp.(*Parser).ParseStr`. -/
def ParseStrC (p : CParser) (str : String) : Except GoErr AST :=
  ParseTokensC p (tokenizeC p str)

/-- Modelled from the spec (§4.5): the comparison parser as a
`parse.Parser` over raw token sequences — re-joining the tokens with
single spaces and re-tokenizing with its own keyword set, the
implementation path §4.5 names as the expected one. -/
def compParserFn : ParserFn :=
  fun ts => ParseStrC compP (" ".intercalate ts)

/-! ## Composition protocol (`parse.AST.Parse`)

`Unparsed.Parse` is `src/ast.go` lines 33-36: it rejects every direct
call. The composite nodes' `Parse` methods (later-revision
`bools`/`comp` files not among the sources) are modelled from the spec
(§4.5): a composite node resolves every child, replacing an `Unparsed`
child by the parser's output for its contents; the Go methods mutate
the child field in place, embedded here as a pure rebuild. -/

/-- The error of `Unparsed.Parse` (`src/ast.go`):
`fmt.Errorf("%w: attempted to parse Unparsed node", ErrParse)`. -/
def unparsedErr : GoErr :=
  .wrap "attempted to parse Unparsed node" .parse

/-- `AST.Parse(parser)`: resolve all `Unparsed` nodes below this node.
The `unparsed` case is `Unparsed.Parse` from `src/ast.go`; the
composite cases are modelled from the spec (§4.5). -/
def resolve (p : ParserFn) : AST → Except GoErr AST
  | .unparsed _ => .error unparsedErr
  | .extLeaf s => .ok (.extLeaf s)
  | .binExpr l r op => do
    let l2 ← match l with
      | .unparsed ts => p ts
      | _ => resolve p l
    let r2 ← match r with
      | .unparsed ts => p ts
      | _ => resolve p r
    pure (.binExpr l2 r2 op)
  | .unaryExpr op e => do
    let e2 ← match e with
      | .unparsed ts => p ts
      | _ => resolve p e
    pure (.unaryExpr op e2)
  | .equalExpr l r op => do
    let l2 ← match l with
      | .unparsed ts => p ts
      | _ => resolve p l
    let r2 ← match r with
      | .unparsed ts => p ts
      | _ => resolve p r
    pure (.equalExpr l2 r2 op)
  | .ordinalExpr l r op => do
    let l2 ← match l with
      | .unparsed ts => p ts
      | _ => resolve p l
    let r2 ← match r with
      | .unparsed ts => p ts
      | _ => resolve p r
    pure (.ordinalExpr l2 r2 op)

/-- No `Unparsed` node occurs anywhere in the tree. -/
def noUnparsed : AST → Bool
  | .unparsed _ => false
  | .extLeaf _ => true
  | .binExpr l r _ => noUnparsed l && noUnparsed r
  | .unaryExpr _ e => noUnparsed e
  | .equalExpr l r _ => noUnparsed l && noUnparsed r
  | .ordinalExpr l r _ => noUnparsed l && noUnparsed r

/-! ## Interpreter composition (`ast.go`) -/

/-- `parse.Interpreter[T]`: Go's `func(AST) (T, error)` returns both a
value and an error. -/
def Interpreter (T : Type) : Type := AST → T × Option GoErr

/-- `errors.Is(err, ErrUnknownAST)` on a possibly-nil error. -/
def errIsUnknown : Option GoErr → Bool
  | some e => errorsIs e .unknownAST
  | none => false

/-- `Interpreter.WithFallback` (`ast.go` lines 49-57): run the primary
interpreter; if its error is (wraps) `ErrUnknownAST`, return the
fallback's outcome on the same node; otherwise return the primary's
outcome. -/
def Interpreter.WithFallback {T : Type} (i b : Interpreter T) :
    Interpreter T :=
  fun ast =>
    let r := i ast
    if errIsUnknown r.2 then b ast else r

/-- Classify a parse outcome as a `ParseError` (an error wrapping
`ErrParse`). -/
def isParseError : Except GoErr AST → Bool
  | .error e => errorsIs e .parse
  | .ok _ => false

/-- Classify a construction outcome as a `ConfigurationError` (an error
wrapping `ErrConfig`). -/
def isConfigError {α : Type} : Except GoErr α → Bool
  | .error e => errorsIs e .config
  | .ok _ => false

/-- A primary interpreter that rejects every node with a wrapped
`ErrUnknownAST` (as `ast.go` requires of interpreters meeting unknown
node types). -/
def primaryI : Interpreter Bool :=
  fun _ => (false, some (.wrap "boolean evaluator: unknown AST node" .unknownAST))

/-- A secondary interpreter that answers with a value and an unrelated
evaluation error. -/
def secondaryI : Interpreter Bool :=
  fun _ => (true, some .eval)

/-! ## Auxiliary definitions used by the claim proofs -/

/-- How a composite node resolves one child (the inline `match` of
`resolve`, restated as a function): an `Unparsed` child is handed to
the parser, any other child resolves recursively. -/
def resolveChild (p : ParserFn) (c : AST) : Except GoErr AST :=
  match c with
  | .unparsed ts => p ts
  | c => resolve p c

/-- A parser whose outputs contain no `Unparsed` node: it returns an
external fully-resolved leaf for any token sequence. -/
def extLeafParser : ParserFn :=
  fun ts => .ok (.extLeaf (" ".intercalate ts))

/-- A configuration whose parentheses are the single codepoints `⟨`/`⟩`
(three UTF-8 bytes each), with all five surface strings pairwise
distinct. -/
def angleCfg : BToken → String
  | .and => "AND"
  | .or => "OR"
  | .not => "NOT"
  | .openParen => "⟨"
  | .closeParen => "⟩"

/-- A configuration whose open parenthesis is the dotted capital I
(U+0130, two UTF-8 bytes), which case-folds to the one-byte `"i"`:
under case-insensitivity, the folded strings satisfy every
post-folding condition, yet `init` rejects the configuration because
its parenthesis length check runs on the pre-folding strings. -/
def dottedICfg : BToken → String
  | .and => "AND"
  | .or => "OR"
  | .not => "NOT"
  | .openParen => "İ"
  | .closeParen => ")"

/-! ## Chain notation (claim C2) -/

/-- Token sequence of an OR-chain `x OR y1 OR y2 ...` under the default
configuration. -/
def orTokens (x : String) (ys : List String) : List String :=
  x :: (ys.map (fun y => ["OR", y])).flatten

/-- Token sequence of a mixed chain: OR-groups joined by `AND`. -/
def chainTokens (g0 : String × List String)
    (gs : List (String × List String)) : List String :=
  orTokens g0.1 g0.2 ++ (gs.map (fun g => "AND" :: orTokens g.1 g.2)).flatten

/-- The tree of one OR-group: right-nested OR over unparsed operands. -/
def orGroupAST : String → List String → AST
  | x, [] => .unparsed [x]
  | x, y :: ys => .binExpr (.unparsed [x]) (orGroupAST y ys) .opOr

/-- The tree of the whole chain: the OR-group trees joined
right-associatively by AND. -/
def andGroupsAST : String × List String → List (String × List String) → AST
  | g, [] => orGroupAST g.1 g.2
  | g, h :: t => .binExpr (orGroupAST g.1 g.2) (andGroupsAST h t) .opAnd

/-- An operand token: not a keyword of the default configuration. -/
def plainB (s : String) : Prop := isKeywordB boolP s = false

/-- Every operand of the chain is a non-keyword token. -/
def chainPlain (g0 : String × List String)
    (gs : List (String × List String)) : Prop :=
  (plainB g0.1 ∧ ∀ y ∈ g0.2, plainB y) ∧
  ∀ g ∈ gs, plainB g.1 ∧ ∀ y ∈ g.2, plainB y

instance (g0 : String × List String) (gs : List (String × List String)) :
    Decidable (chainPlain g0 gs) := by
  unfold chainPlain plainB
  infer_instance

/-- The tokens after an unparsed run either end or start with a
keyword. -/
def stopsHead : List String → Prop
  | [] => True
  | u :: _ => isKeywordB boolP u = true

/-- The tokens after an OR-group either end or continue with `AND`. -/
def andStops : List String → Prop
  | [] => True
  | u :: _ => u = "AND"

/-! ## Trie path functions (claim C3) -/

/-- Descend along a path of codepoints (the node `add`/`Match` reach by
following existing edges). -/
def trieLookup : List Char → KeywordTrie → Option KeywordTrie
  | [], t => some t
  | c :: rest, t =>
    match findEdge c t.edgesOf with
    | some ch => trieLookup rest ch
    | none => none

/-- The `leaf` recorded at the end of a path, when the path exists. -/
def lookupLeaf (t : KeywordTrie) (p : List Char) : Option String :=
  (trieLookup p t).map KeywordTrie.leafOf

/-- A keyword is recorded at path `p` of `t`. -/
def RegP (t : KeywordTrie) (p : List Char) : Prop :=
  ∃ t2, trieLookup p t = some t2 ∧ t2.leafOf ≠ ""

/-- The leaf recorded at path `p` after registering the keywords `ks`
into a fresh trie: the matching keyword on its own path, `""` on other
existing paths (the root and proper prefixes of keywords), absent
elsewhere. -/
def regOf (ks : List String) (p : List Char) : Option String :=
  if ∃ k ∈ ks, k.data = p then some (String.mk p)
  else if p = [] ∨ ∃ k ∈ ks, p ≠ k.data ∧ p <+: k.data then some ""
  else none

/-! ## Theorems -/

/-! ## Claim C5 -/

/-- Counterexample to C5: with a parser that succeeds on `["x"]`
(returning the tokens unchanged), invoking the resolution entry point
of a bare `Unparsed` leaf holding `["x"]` does not yield the parser's
subtree — it is a `ParseError` while the parser's own answer is a
success. -/
theorem unparsed_parse_not_delegating :
    resolve (fun ts => .ok (.unparsed ts)) (.unparsed ["x"]) =
      .error unparsedErr ∧
    (fun ts => (Except.ok (AST.unparsed ts) : Except GoErr AST)) ["x"] =
      .ok (.unparsed ["x"]) ∧
    resolve (fun ts => .ok (.unparsed ts)) (.unparsed ["x"]) ≠
      (fun ts => (Except.ok (AST.unparsed ts) : Except GoErr AST)) ["x"] :=
  ⟨rfl, rfl, fun h => nomatch h⟩

/-- C5 (amended): for every parser `p` and token sequence `ts`,
invoking the resolution entry point of a bare `Unparsed` leaf never
invokes `p`: it unconditionally returns the `ParseError`
"attempted to parse Unparsed node"; `Unparsed` contents are resolved
only by enclosing composite nodes. -/
theorem unparsed_parse_always_error (p : ParserFn) (ts : List String) :
    resolve p (.unparsed ts) = .error unparsedErr ∧
    errorsIs unparsedErr .parse = true :=
  ⟨rfl, rfl⟩

/-! ## Claim C6 -/

/-- C6: `Primary.WithFallback(Secondary)` first invokes Primary; when
Primary's error is (wraps) `ErrUnknownAST` it returns Secondary's
outcome on the same node unchanged, whatever that outcome is; otherwise
Primary's outcome (success or any other error) is returned and
Secondary is never consulted. -/
theorem withFallback_spec (T : Type) (i b : Interpreter T) (ast : AST) :
    (errIsUnknown (i ast).2 = true → i.WithFallback b ast = b ast) ∧
    (errIsUnknown (i ast).2 = false → i.WithFallback b ast = i ast) := by
  constructor <;> intro h <;> simp [Interpreter.WithFallback, h]

/-- Witness for C6: at a concrete node the primary reports unknown-AST,
and the combinator returns the secondary's outcome (value and error)
unchanged. -/
theorem withFallback_spec_witness :
    errIsUnknown (primaryI (.extLeaf "v")).2 = true ∧
    Interpreter.WithFallback primaryI secondaryI (.extLeaf "v") =
      secondaryI (.extLeaf "v") :=
  ⟨rfl, (withFallback_spec Bool primaryI secondaryI (.extLeaf "v")).1 rfl⟩

/-! ## Claim C8 -/

/-- C8: in the comparison engine each grammar level applies at most one
operator: `"x > (y > z)"` parses into nested ordinal nodes, while
`"x > y > z"` leaves `[">", "z"]` unconsumed after the top-level
production and is a parse error; operand order is preserved and
GREATER/LESS stay distinct. -/
theorem comp_single_operator_per_level :
    ParseStrC compP "x > (y > z)" =
      .ok (.ordinalExpr (.unparsed ["x"])
        (.ordinalExpr (.unparsed ["y"]) (.unparsed ["z"]) .opGreater)
        .opGreater) ∧
    runC compP (fuelFor ["x", ">", "y", ">", "z"]) .expr
        ["x", ">", "y", ">", "z"] =
      .ok (.ordinalExpr (.unparsed ["x"]) (.unparsed ["y"]) .opGreater,
        [">", "z"]) ∧
    isParseError (ParseStrC compP "x > y > z") = true ∧
    ParseStrC compP "x > y" =
      .ok (.ordinalExpr (.unparsed ["x"]) (.unparsed ["y"]) .opGreater) ∧
    ParseStrC compP "x < y" =
      .ok (.ordinalExpr (.unparsed ["x"]) (.unparsed ["y"]) .opLess) ∧
    CompOp.opGreater ≠ CompOp.opLess :=
  ⟨rfl, rfl, rfl, rfl, rfl, fun h => nomatch h⟩

/-! ## Claim C1 -/

/-- Counterexample to C1: under the default boolean configuration,
tokenizing `"xyzNOT"` yields the single token `"xyzNOT"`, not the two
tokens `"xyz"` and `"NOT"` — a keyword immediately preceded by
non-whitespace literal characters is not emitted as its own token. -/
theorem tokenize_xyzNOT_single_token :
    tokenizeB boolP "xyzNOT" = ["xyzNOT"] ∧
    tokenizeB boolP "xyzNOT" ≠ ["xyz", "NOT"] :=
  ⟨rfl, by decide⟩

/-- The scan loop agrees with the `tokStep` state machine, for any
already-emitted tokens and pending run. -/
lemma tokenizeLoop_eq_foldl (op cl : Char) (isKeyword : String → Bool) :
    ∀ (cs : List Char) (res : List String) (substr : List Char),
      res ++ tokenizeLoop op cl isKeyword cs substr =
        (cs.foldl (tokStep op cl isKeyword) (res, substr)).1 ++
          flushRun (cs.foldl (tokStep op cl isKeyword) (res, substr)).2 := by
  intro cs
  induction cs with
  | nil => intro res substr; simp [tokenizeLoop]
  | cons c rest ih =>
    intro res substr
    by_cases h1 : c = op ∨ c = cl
    · simp only [tokenizeLoop, tokStep, List.foldl, if_pos h1]
      rw [← ih (res ++ flushRun substr ++ [String.mk [c]]) []]
      simp
    · by_cases h2 : goIsSpace c
      · simp only [tokenizeLoop, tokStep, List.foldl, if_neg h1, if_pos h2]
        rw [← ih (res ++ flushRun substr) []]
        simp
      · by_cases h3 : isKeyword (String.mk (substr ++ [c]))
        · simp only [tokenizeLoop, tokStep, List.foldl, if_neg h1, if_neg h2,
            if_pos h3]
          rw [← ih (res ++ [String.mk (substr ++ [c])]) []]
          simp
        · simp only [tokenizeLoop, tokStep, List.foldl, if_neg h1, if_neg h2,
            if_neg h3]
          exact ih res (substr ++ [c])

/-- C1 (amended): `Tokenize` is the one-codepoint-at-a-time state
machine `tokStep`: each non-parenthesis, non-whitespace codepoint is
appended to the pending literal run, and the entire updated run is
emitted as one token exactly when it equals a registered keyword — not
a keyword match starting at the current position. Consequently a
keyword immediately preceded by non-whitespace literal characters is
not split out: `"xyzNOT"` is the single token `"xyzNOT"`, `"xyzNOT OR
abc"` tokenizes to `["xyzNOT", "OR", "abc"]`, while keywords at run
boundaries are emitted as their own tokens. -/
theorem tokenizer_whole_run_keyword :
    (∀ (str : String) (op cl : Char) (isKeyword : String → Bool),
      Tokenize str op cl isKeyword = tokenizeFold str op cl isKeyword) ∧
    tokenizeB boolP "xyzNOT" = ["xyzNOT"] ∧
    tokenizeB boolP "xyzNOT OR abc" = ["xyzNOT", "OR", "abc"] ∧
    tokenizeB boolP "abc AND NOT(def OR xyz)" =
      ["abc", "AND", "NOT", "(", "def", "OR", "xyz", ")"] := by
  refine ⟨fun str op cl isKeyword => ?_, rfl, rfl, rfl⟩
  have h := tokenizeLoop_eq_foldl op cl isKeyword str.data [] []
  simpa [Tokenize, tokenizeFold] using h

/-! ## Claim C9 -/

lemma resolve_binExpr (p : ParserFn) (l r : AST) (op : BoolOp) :
    resolve p (.binExpr l r op) =
      (do
        let l2 ← resolveChild p l
        let r2 ← resolveChild p r
        pure (.binExpr l2 r2 op)) := by
  cases l <;> cases r <;> rfl

lemma resolve_unaryExpr (p : ParserFn) (e : AST) (op : BoolOp) :
    resolve p (.unaryExpr op e) =
      (do
        let e2 ← resolveChild p e
        pure (.unaryExpr op e2)) := by
  cases e <;> rfl

lemma resolve_equalExpr (p : ParserFn) (l r : AST) (op : CompOp) :
    resolve p (.equalExpr l r op) =
      (do
        let l2 ← resolveChild p l
        let r2 ← resolveChild p r
        pure (.equalExpr l2 r2 op)) := by
  cases l <;> cases r <;> rfl

lemma resolve_ordinalExpr (p : ParserFn) (l r : AST) (op : CompOp) :
    resolve p (.ordinalExpr l r op) =
      (do
        let l2 ← resolveChild p l
        let r2 ← resolveChild p r
        pure (.ordinalExpr l2 r2 op)) := by
  cases l <;> cases r <;> rfl

lemma resolveChild_ok (q : ParserFn) (c : AST) (h : noUnparsed c = true)
    (hres : resolve q c = .ok c) : resolveChild q c = .ok c := by
  cases c <;> simp_all [resolveChild, noUnparsed]

/-- Resolving a tree that contains no `Unparsed` node leaves it
unchanged, for every parser. -/
lemma resolve_of_noUnparsed (q : ParserFn) :
    ∀ t : AST, noUnparsed t = true → resolve q t = .ok t := by
  intro t
  induction t with
  | unparsed ts => intro h; simp [noUnparsed] at h
  | extLeaf s => intro _; rfl
  | binExpr l r op ihl ihr =>
    intro h
    simp only [noUnparsed, Bool.and_eq_true] at h
    rw [resolve_binExpr, resolveChild_ok q l h.1 (ihl h.1),
      resolveChild_ok q r h.2 (ihr h.2)]
    rfl
  | unaryExpr op e ihe =>
    intro h
    simp only [noUnparsed] at h
    rw [resolve_unaryExpr, resolveChild_ok q e h (ihe h)]
    rfl
  | equalExpr l r op ihl ihr =>
    intro h
    simp only [noUnparsed, Bool.and_eq_true] at h
    rw [resolve_equalExpr, resolveChild_ok q l h.1 (ihl h.1),
      resolveChild_ok q r h.2 (ihr h.2)]
    rfl
  | ordinalExpr l r op ihl ihr =>
    intro h
    simp only [noUnparsed, Bool.and_eq_true] at h
    rw [resolve_ordinalExpr, resolveChild_ok q l h.1 (ihl h.1),
      resolveChild_ok q r h.2 (ihr h.2)]
    rfl

/-- C9: if resolving a tree's `Unparsed` leaves with parser `P`
succeeds and the resulting tree contains no further `Unparsed` node
(i.e. `P`'s output subtrees contained none), then resolving that
result with any parser `Q` leaves it unchanged. -/
theorem resolve_idempotent_after_full_resolution
    (P Q : ParserFn) (t t2 : AST)
    (_hres : resolve P t = .ok t2) (hno : noUnparsed t2 = true) :
    resolve Q t2 = .ok t2 :=
  resolve_of_noUnparsed Q t2 hno

/-- Witness for C9: resolve `AND(Unparsed["x"], Unparsed["y"])` with
`extLeafParser`, then resolve the fully-resolved result with the
default boolean parser; the tree is unchanged. -/
theorem resolve_idempotent_after_full_resolution_witness :
    resolve extLeafParser
        (.binExpr (.unparsed ["x"]) (.unparsed ["y"]) .opAnd) =
      .ok (.binExpr (.extLeaf "x") (.extLeaf "y") .opAnd) ∧
    noUnparsed (.binExpr (.extLeaf "x") (.extLeaf "y") .opAnd) = true ∧
    resolve (fun ts => ParseTokensB boolP ts)
        (.binExpr (.extLeaf "x") (.extLeaf "y") .opAnd) =
      .ok (.binExpr (.extLeaf "x") (.extLeaf "y") .opAnd) :=
  ⟨rfl, rfl,
    resolve_idempotent_after_full_resolution extLeafParser
      (fun ts => ParseTokensB boolP ts)
      (.binExpr (.unparsed ["x"]) (.unparsed ["y"]) .opAnd)
      (.binExpr (.extLeaf "x") (.extLeaf "y") .opAnd) rfl rfl⟩

/-! ## Claim C4 -/

/-- A length-five list is duplicate-free exactly when its `dedup` still
has five entries. -/
lemma nodup_iff_dedup_len (l : List String) (h : l.length = 5) :
    l.Nodup ↔ l.dedup.length = 5 := by
  constructor
  · intro hn
    rw [List.dedup_eq_self.mpr hn, h]
  · intro hl
    have hsub : List.Sublist l.dedup l := l.dedup_sublist
    have : l.dedup = l := hsub.eq_of_length (by rw [hl, h])
    rw [← this]
    exact l.nodup_dedup

/-- C4 (amended): `NewParser` fails with a configuration error iff: an
open- or close-parenthesis surface string, as configured and before
any case-folding, is not exactly one UTF-8 byte (Go's `len(s) != 1` —
a single multi-byte codepoint is also rejected), the two configured
parenthesis strings are equal to each other, or, after case-folding
when case-insensitivity is configured, the five configured surface
strings are not pairwise distinct; when it fails, no parser value is
returned. The parenthesis checks really are pre-folding: the second
conjunct shows a case-insensitive configuration with `OpenParen = "İ"`
(two bytes, folding to the one-byte `"i"`) that satisfies every
post-folding condition yet is rejected. -/
theorem newParser_config_error_iff (cfg : BToken → String) (ci : Bool) :
    (isConfigError (initB cfg ci) = true ↔
      (goLen (cfg .openParen) ≠ 1 ∨ goLen (cfg .closeParen) ≠ 1 ∨
       cfg .openParen = cfg .closeParen ∨
       ¬ (configStrings (foldedCfg ci cfg)).Nodup)) ∧
    (isConfigError (initB dottedICfg true) = true ∧
     goLen (foldedCfg true dottedICfg .openParen) = 1 ∧
     goLen (foldedCfg true dottedICfg .closeParen) = 1 ∧
     foldedCfg true dottedICfg .openParen ≠
       foldedCfg true dottedICfg .closeParen ∧
     (configStrings (foldedCfg true dottedICfg)).Nodup) := by
  refine ⟨?_, rfl, rfl, rfl, by decide, by decide⟩
  unfold initB
  by_cases hp : goLen (cfg .openParen) ≠ 1 ∨ goLen (cfg .closeParen) ≠ 1
  · rw [if_pos hp]
    exact iff_of_true rfl (by tauto)
  · rw [if_neg hp]
    push_neg at hp
    by_cases he : cfg .openParen = cfg .closeParen
    · rw [if_pos he]
      exact iff_of_true rfl (Or.inr (Or.inr (Or.inl he)))
    · rw [if_neg he]
      have h5 : (configStrings (foldedCfg ci cfg)).length = 5 := rfl
      by_cases hd : (configStrings (foldedCfg ci cfg)).dedup.length ≠ 5
      · rw [if_pos hd]
        refine iff_of_true rfl (Or.inr (Or.inr (Or.inr ?_)))
        rw [nodup_iff_dedup_len _ h5]
        exact hd
      · rw [if_neg hd]
        push_neg at hd
        have hn : (configStrings (foldedCfg ci cfg)).Nodup :=
          (nodup_iff_dedup_len _ h5).mpr hd
        refine iff_of_false (by simp [isConfigError]) ?_
        push_neg
        exact ⟨hp.1, hp.2, he, hn⟩

/-- Counterexample to C4: under this case-sensitive configuration every
condition of the claim's iff is false — both parentheses are exactly
one codepoint, they differ, and the five strings are pairwise
distinct — yet `NewParser` fails with a configuration error, because
`init` requires `len(s) == 1` in bytes. -/
theorem newParser_single_codepoint_paren_rejected :
    isConfigError (initB angleCfg false) = true ∧
    (angleCfg .openParen).data.length = 1 ∧
    (angleCfg .closeParen).data.length = 1 ∧
    angleCfg .openParen ≠ angleCfg .closeParen ∧
    (configStrings (foldedCfg false angleCfg)).Nodup ∧
    goLen (angleCfg .openParen) = 3 :=
  ⟨rfl, rfl, rfl, by decide, by decide, rfl⟩

/-! ## Claims C2 and C7 -/

lemma plainB_ne (x : String) (hx : isKeywordB boolP x = false) :
    x ≠ "AND" ∧ x ≠ "OR" ∧ x ≠ "NOT" ∧ x ≠ "(" ∧ x ≠ ")" := by
  simp only [isKeywordB, boolP, List.mem_cons, List.not_mem_nil, or_false,
    decide_eq_false_iff_not] at hx
  push_neg at hx
  exact hx

lemma andStops_stopsHead (trail : List String) (h : andStops trail) :
    stopsHead trail := by
  cases trail with
  | nil => trivial
  | cons u us =>
    unfold andStops at h
    unfold stopsHead
    rw [h]
    rfl

lemma pRestB_plain (x : String) (trail : List String)
    (hx : isKeywordB boolP x = false) (ht : stopsHead trail) :
    pRestB boolP (x :: trail) = .ok (.unparsed [x], trail) := by
  unfold pRestB
  cases trail with
  | nil => simp [List.takeWhile, List.dropWhile, hx]
  | cons u us =>
    unfold stopsHead at ht
    simp [List.takeWhile, List.dropWhile, hx, ht]

lemma runB_parens_plain (f : Nat) (x : String) (trail : List String)
    (hx : isKeywordB boolP x = false) (ht : stopsHead trail) :
    runB boolP (f + 1) .parens (x :: trail) = .ok (.unparsed [x], trail) := by
  have hxo := (plainB_ne x hx).2.2.2.1
  simp only [runB, matchTok]
  rw [if_neg (by exact hxo)]
  exact pRestB_plain x trail hx ht

lemma runB_not_plain (f : Nat) (x : String) (trail : List String)
    (hx : isKeywordB boolP x = false) (ht : stopsHead trail) :
    runB boolP (f + 2) .not (x :: trail) = .ok (.unparsed [x], trail) := by
  have hxn := (plainB_ne x hx).2.2.1
  simp only [runB, matchTok]
  rw [if_neg (by exact hxn)]
  exact runB_parens_plain f x trail hx ht

lemma orTokens_nil (x : String) : orTokens x [] = [x] := rfl

lemma orTokens_cons (x y : String) (ys : List String) :
    orTokens x (y :: ys) = x :: "OR" :: orTokens y ys := by
  simp [orTokens]

lemma orTokens_length (x : String) (ys : List String) :
    (orTokens x ys).length = 2 * ys.length + 1 := by
  induction ys generalizing x with
  | nil => rfl
  | cons y ys ih =>
    rw [orTokens_cons]
    simp only [List.length_cons, ih y]
    omega

lemma chainTokens_nil (g0 : String × List String) :
    chainTokens g0 [] = orTokens g0.1 g0.2 := by
  simp [chainTokens]

lemma chainTokens_cons (g0 g : String × List String)
    (gs : List (String × List String)) :
    chainTokens g0 (g :: gs) =
      orTokens g0.1 g0.2 ++ "AND" :: chainTokens g gs := by
  simp [chainTokens]

lemma matchTok_or_none (trail : List String) (h : andStops trail) :
    matchTok boolP .or trail = none := by
  cases trail with
  | nil => rfl
  | cons u us =>
    unfold andStops at h
    subst h
    rfl

lemma exceptBind_ok {α β : Type} (a : α) (f : α → Except GoErr β) :
    (Except.ok a >>= f) = f a := rfl

/-- One-level unfolding of the `or` production. -/
lemma runB_or_eq (p : BParser) (f : Nat) (ts : List String) :
    runB p (f + 1) .or ts =
      ((runB p f .not ts) >>= fun lr =>
        match matchTok p .or lr.2 with
        | some r2 => (runB p f .or r2) >>= fun rr =>
            pure (.binExpr lr.1 rr.1 .opOr, rr.2)
        | none => pure lr) := rfl

/-- One-level unfolding of the `and` production. -/
lemma runB_and_eq (p : BParser) (f : Nat) (ts : List String) :
    runB p (f + 1) .and ts =
      ((runB p f .or ts) >>= fun lr =>
        match matchTok p .and lr.2 with
        | some r2 => (runB p f .and r2) >>= fun rr =>
            pure (.binExpr lr.1 rr.1 .opAnd, rr.2)
        | none => pure lr) := rfl

/-- One-level unfolding of the `expr` production. -/
lemma runB_expr_eq (p : BParser) (f : Nat) (ts : List String) :
    runB p (f + 1) .expr ts = runB p f .and ts := rfl

/-- One-level unfolding of the `not` production. -/
lemma runB_not_eq (p : BParser) (f : Nat) (ts : List String) :
    runB p (f + 1) .not ts =
      match matchTok p .not ts with
      | some r => (runB p f .parens r) >>= fun er =>
          pure (.unaryExpr .opNot er.1, er.2)
      | none => runB p f .parens ts := rfl

/-- Under every configuration, the NOT token with nothing following it
fails inside `parseRest`. -/
lemma runB_not_alone (p : BParser) (f : Nat) :
    runB p (f + 2) .not [p.config .not] =
      .error (.wrap "unexpected end of expression" .parse) := by
  rw [show ((f + 2 : Nat)) = (f + 1) + 1 from rfl, runB_not_eq,
    show matchTok p .not [p.config .not] = some [] from by
      show (if p.config BToken.not = p.config BToken.not
        then some ([] : List String) else none) = some []
      rw [if_pos rfl]]
  rfl

/-- Under every configuration, parsing the sole token `NOT` is a parse
error. -/
lemma parseTokens_not_alone (p : BParser) :
    isParseError (ParseTokensB p [p.config .not]) = true := by
  unfold ParseTokensB
  rw [show fuelFor [p.config .not] = 16 from rfl,
    show (16 : Nat) = 15 + 1 from rfl, runB_expr_eq,
    show (15 : Nat) = 14 + 1 from rfl, runB_and_eq,
    show (14 : Nat) = 13 + 1 from rfl, runB_or_eq,
    show (13 : Nat) = 11 + 2 from rfl, runB_not_alone]
  rfl

/-- C7: each listed input is a parse error (an error wrapping
`ErrParse`) under the default boolean configuration: an unmatched open
parenthesis, a trailing unmatched close parenthesis, `NOT` with nothing
following, an empty unparsed region where content was expected
(`"abc AND"`, `"()"`, `"AND 7"`), and leftover unconsumed tokens after
the top-level production (`"(a) b"`); moreover the `NOT`-with-nothing-
following case is a parse error under every configuration. -/
theorem bool_parse_error_inputs :
    isParseError (ParseB boolP "NOT (a AND b AND c") = true ∧
    isParseError (ParseB boolP "abc)") = true ∧
    isParseError (ParseB boolP "NOT") = true ∧
    isParseError (ParseB boolP "abc AND") = true ∧
    isParseError (ParseB boolP "()") = true ∧
    isParseError (ParseB boolP "AND 7") = true ∧
    isParseError (ParseB boolP "(a) b") = true ∧
    ∀ p : BParser, isParseError (ParseTokensB p [p.config .not]) = true :=
  ⟨rfl, rfl, rfl, rfl, rfl, rfl, rfl, parseTokens_not_alone⟩

lemma runB_or_chain :
    ∀ (ys : List String) (f : Nat) (x : String) (trail : List String),
      3 * ys.length + 3 ≤ f →
      isKeywordB boolP x = false →
      (∀ y ∈ ys, isKeywordB boolP y = false) →
      andStops trail →
      runB boolP f .or (orTokens x ys ++ trail) =
        .ok (orGroupAST x ys, trail) := by
  intro ys
  induction ys with
  | nil =>
    intro f x trail hf hx _ ht
    obtain ⟨f1, rfl⟩ : ∃ k, f = k + 1 := ⟨f - 1, by omega⟩
    obtain ⟨f2, rfl⟩ : ∃ k, f1 = k + 2 := ⟨f1 - 2, by omega⟩
    rw [orTokens_nil, runB_or_eq,
      show ([x] ++ trail : List String) = x :: trail from rfl,
      runB_not_plain f2 x trail hx (andStops_stopsHead trail ht)]
    simp only [exceptBind_ok]
    rw [matchTok_or_none trail ht]
    rfl
  | cons y ys ih =>
    intro f x trail hf hx hys ht
    obtain ⟨f1, rfl⟩ : ∃ k, f = k + 1 := ⟨f - 1, by omega⟩
    obtain ⟨f2, rfl⟩ : ∃ k, f1 = k + 2 := ⟨f1 - 2, by omega⟩
    rw [orTokens_cons, runB_or_eq,
      show ((x :: "OR" :: orTokens y ys) ++ trail : List String) =
        x :: ("OR" :: (orTokens y ys ++ trail)) from rfl,
      runB_not_plain f2 x _ hx (by unfold stopsHead; rfl)]
    simp only [exceptBind_ok]
    rw [show matchTok boolP .or ("OR" :: (orTokens y ys ++ trail)) =
      some (orTokens y ys ++ trail) from rfl]
    show ((runB boolP (f2 + 2) .or (orTokens y ys ++ trail)) >>= fun rr =>
      pure ((AST.unparsed [x]).binExpr rr.1 .opOr, rr.2)) = _
    rw [ih (f2 + 2) y trail (by simp at hf ⊢; omega)
      (hys y (by simp)) (fun z hz => hys z (by simp [hz])) ht]
    rfl

lemma runB_and_chain :
    ∀ (gs : List (String × List String)) (f : Nat)
      (g0 : String × List String),
      3 * (chainTokens g0 gs).length + 4 ≤ f →
      chainPlain g0 gs →
      runB boolP f .and (chainTokens g0 gs) =
        .ok (andGroupsAST g0 gs, []) := by
  intro gs
  induction gs with
  | nil =>
    intro f g0 hf hc
    obtain ⟨f1, rfl⟩ : ∃ k, f = k + 1 := ⟨f - 1, by omega⟩
    rw [chainTokens_nil, orTokens_length] at hf
    rw [chainTokens_nil, runB_and_eq,
      show orTokens g0.1 g0.2 = orTokens g0.1 g0.2 ++ [] from
        (List.append_nil _).symm,
      runB_or_chain g0.2 f1 g0.1 [] (by omega) hc.1.1
        (fun y hy => hc.1.2 y hy) trivial]
    rfl
  | cons g gs2 ih =>
    intro f g0 hf hc
    obtain ⟨f1, rfl⟩ : ∃ k, f = k + 1 := ⟨f - 1, by omega⟩
    rw [chainTokens_cons] at hf
    simp only [List.length_append, List.length_cons, orTokens_length] at hf
    rw [chainTokens_cons, runB_and_eq,
      runB_or_chain g0.2 f1 g0.1 ("AND" :: chainTokens g gs2) (by omega)
        hc.1.1 (fun y hy => hc.1.2 y hy) (by unfold andStops; rfl)]
    simp only [exceptBind_ok]
    rw [show matchTok boolP .and ("AND" :: chainTokens g gs2) =
      some (chainTokens g gs2) from rfl]
    show ((runB boolP f1 .and (chainTokens g gs2)) >>= fun rr =>
      pure ((orGroupAST g0.1 g0.2).binExpr rr.1 .opAnd, rr.2)) = _
    rw [ih f1 g (by omega)
      ⟨hc.2 g (by simp), fun g2 hg2 => hc.2 g2 (by simp [hg2])⟩]
    rfl

/-- C2: parsing `"x OR y AND z OR w"` under the default boolean
configuration yields AND(OR(x, y), OR(z, w)); and in general, for any
chain of non-keyword operands, the `and` production parses an
OR-subtree first and, on seeing `AND`, recurses for the right operand,
so mixed AND/OR chains parse as their OR-groups joined
right-associatively by AND at the outermost split. -/
theorem bool_parse_and_outer_or_groups :
    ParseB boolP "x OR y AND z OR w" =
      .ok (.binExpr (.binExpr (.unparsed ["x"]) (.unparsed ["y"]) .opOr)
        (.binExpr (.unparsed ["z"]) (.unparsed ["w"]) .opOr) .opAnd) ∧
    ∀ (g0 : String × List String) (gs : List (String × List String)),
      chainPlain g0 gs →
      ParseTokensB boolP (chainTokens g0 gs) = .ok (andGroupsAST g0 gs) := by
  refine ⟨rfl, fun g0 gs hc => ?_⟩
  unfold ParseTokensB
  have h8 : fuelFor (chainTokens g0 gs) =
      (8 * (chainTokens g0 gs).length + 7) + 1 := by
    unfold fuelFor
    omega
  rw [h8,
    show runB boolP ((8 * (chainTokens g0 gs).length + 7) + 1) .expr
        (chainTokens g0 gs) =
      runB boolP (8 * (chainTokens g0 gs).length + 7) .and
        (chainTokens g0 gs) from rfl,
    runB_and_chain gs _ g0 (by omega) hc]
  rfl

/-- Witness for C2: the general chain theorem applied to the chain
`x OR y AND z OR w` itself. -/
theorem bool_parse_and_outer_or_groups_witness :
    chainPlain ("x", ["y"]) [("z", ["w"])] ∧
    ParseTokensB boolP (chainTokens ("x", ["y"]) [("z", ["w"])]) =
      .ok (andGroupsAST ("x", ["y"]) [("z", ["w"])]) :=
  ⟨by decide,
    bool_parse_and_outer_or_groups.2 ("x", ["y"]) [("z", ["w"])] (by decide)⟩

/-! ## Claim C3 -/

lemma findEdge_setEdge_self (c : Char) (ch : KeywordTrie) :
    ∀ es, findEdge c (setEdge c ch es) = some ch := by
  intro es
  induction es with
  | nil => simp [setEdge, findEdge]
  | cons e es ih =>
    obtain ⟨r, x⟩ := e
    by_cases h : r = c
    · subst h
      simp [setEdge, findEdge]
    · simp [setEdge, findEdge, h, ih]

lemma findEdge_setEdge_ne (c d : Char) (ch : KeywordTrie) (h : d ≠ c) :
    ∀ es, findEdge d (setEdge c ch es) = findEdge d es := by
  have hcd : ¬ c = d := fun hc => h hc.symm
  intro es
  induction es with
  | nil => simp [setEdge, findEdge, hcd]
  | cons e es ih =>
    obtain ⟨r, x⟩ := e
    by_cases hr : r = c
    · subst hr
      simp [setEdge, findEdge, hcd, ih]
    · simp [setEdge, findEdge, hr, ih]

lemma lookupLeaf_nil (t : KeywordTrie) : lookupLeaf t [] = some t.leafOf := rfl

lemma lookupLeaf_cons (t : KeywordTrie) (d : Char) (p : List Char) :
    lookupLeaf t (d :: p) =
      match findEdge d t.edgesOf with
      | some ch => lookupLeaf ch p
      | none => none := by
  cases hfe : findEdge d t.edgesOf with
  | some ch =>
    show (trieLookup (d :: p) t).map _ = _
    rw [show trieLookup (d :: p) t = trieLookup p ch from by
      conv_lhs => unfold trieLookup
      rw [hfe]]
    rfl
  | none =>
    show (trieLookup (d :: p) t).map _ = _
    rw [show trieLookup (d :: p) t = none from by
      conv_lhs => unfold trieLookup
      rw [hfe]]
    rfl

/-- What `add` does to every path: the added keyword's own path now
records `orig`; proper prefixes of it keep their old leaf (freshly
created nodes record `""`); every other path is untouched. -/
lemma lookupLeaf_trieAdd :
    ∀ (kw : List Char) (orig : String) (t : KeywordTrie) (p : List Char),
      lookupLeaf (trieAdd kw orig t) p =
        if p = kw then some orig
        else if p <+: kw then some ((lookupLeaf t p).getD "")
        else lookupLeaf t p := by
  intro kw
  induction kw with
  | nil =>
    intro orig t p
    cases p with
    | nil => rfl
    | cons d p2 =>
      rw [if_neg (by simp), if_neg (by simp)]
      rw [lookupLeaf_cons, lookupLeaf_cons]
      rfl
  | cons c kr ih =>
    intro orig t p
    cases p with
    | nil =>
      rw [if_neg (by simp), if_pos ⟨c :: kr, rfl⟩]
      rfl
    | cons d p2 =>
      by_cases hdc : d = c
      · subst hdc
        rw [lookupLeaf_cons]
        show (match findEdge d (setEdge d (trieAdd kr orig
            ((findEdge d t.edgesOf).getD (.node [] ""))) t.edgesOf) with
          | some ch => lookupLeaf ch p2
          | none => none) = _
        rw [findEdge_setEdge_self]
        show lookupLeaf (trieAdd kr orig
          ((findEdge d t.edgesOf).getD (.node [] ""))) p2 = _
        rw [ih orig _ p2]
        by_cases h1 : p2 = kr
        · subst h1
          rw [if_pos rfl, if_pos rfl]
        · rw [if_neg h1, if_neg (by simp [List.cons_prefix_cons, h1] :
            ¬ (d :: p2 = d :: kr))]
          by_cases h2 : p2 <+: kr
          · rw [if_pos h2, if_pos (by simp [List.cons_prefix_cons, h2])]
            rw [lookupLeaf_cons t d p2]
            cases hfe : findEdge d t.edgesOf with
            | some tc => rfl
            | none =>
              cases p2 with
              | nil => rfl
              | cons e p3 =>
                rw [lookupLeaf_cons]
                rfl
          · rw [if_neg h2, if_neg (by simp [List.cons_prefix_cons, h2])]
            rw [lookupLeaf_cons t d p2]
            cases hfe : findEdge d t.edgesOf with
            | some tc => rfl
            | none =>
              cases p2 with
              | nil => exact absurd ⟨kr, rfl⟩ h2
              | cons e p3 =>
                rw [lookupLeaf_cons]
                rfl
      · rw [if_neg (by simp [List.cons_prefix_cons, hdc]),
          if_neg (by simp [List.cons_prefix_cons, hdc])]
        rw [lookupLeaf_cons, lookupLeaf_cons]
        show (match findEdge d (setEdge c (trieAdd kr orig
            ((findEdge c t.edgesOf).getD (.node [] ""))) t.edgesOf) with
          | some ch => lookupLeaf ch p2
          | none => none) = _
        rw [findEdge_setEdge_ne c d _ hdc]

lemma lookupLeaf_emptyTrie : ∀ p, lookupLeaf emptyTrie p = regOf [] p := by
  intro p
  cases p with
  | nil =>
    unfold regOf
    rw [if_neg (by simp), if_pos (Or.inl rfl)]
    rfl
  | cons d p2 =>
    unfold regOf
    rw [if_neg (by simp), if_neg (by simp)]
    rw [show lookupLeaf emptyTrie (d :: p2) =
      (match findEdge d emptyTrie.edgesOf with
        | some ch => lookupLeaf ch p2
        | none => none) from lookupLeaf_cons _ _ _]
    rfl

lemma lookupLeaf_add_step (k : String) (t : KeywordTrie) (seen : List String)
    (h : ∀ p, lookupLeaf t p = regOf seen p) :
    ∀ q, lookupLeaf (t.Add k) q = regOf (seen ++ [k]) q := by
  intro q
  unfold KeywordTrie.Add
  rw [lookupLeaf_trieAdd k.data k t q]
  by_cases h1 : q = k.data
  · rw [if_pos h1]
    unfold regOf
    rw [if_pos ⟨k, by simp, h1.symm⟩]
    rw [h1]
  · rw [if_neg h1]
    by_cases h2 : q <+: k.data
    · rw [if_pos h2, h q]
      unfold regOf
      by_cases h3 : ∃ k2 ∈ seen, k2.data = q
      · rw [if_pos h3,
          if_pos (by obtain ⟨k2, hk2, hd⟩ := h3; exact ⟨k2, by simp [hk2], hd⟩)]
        rfl
      · have h4 : ¬ ∃ k2 ∈ seen ++ [k], k2.data = q := by
          rintro ⟨k2, hk2, hd⟩
          rcases List.mem_append.mp hk2 with hin | hin
          · exact h3 ⟨k2, hin, hd⟩
          · rw [List.mem_singleton] at hin
            subst hin
            exact h1 (hd ▸ rfl)
        have hgen : ∀ (c : Prop) (inst : Decidable c),
            ((if c then some "" else (none : Option String)).getD "") = "" := by
          intro c inst
          split <;> rfl
        rw [if_neg h3, if_neg h4,
          if_pos (show q = [] ∨ ∃ k2 ∈ seen ++ [k], q ≠ k2.data ∧ q <+: k2.data
            from Or.inr ⟨k, by simp, h1, h2⟩),
          hgen]
    · rw [if_neg h2, h q]
      unfold regOf
      have e1 : (∃ k2 ∈ seen ++ [k], k2.data = q) ↔
          (∃ k2 ∈ seen, k2.data = q) := by
        constructor
        · rintro ⟨k2, hk2, hd⟩
          rcases List.mem_append.mp hk2 with hin | hin
          · exact ⟨k2, hin, hd⟩
          · rw [List.mem_singleton] at hin
            subst hin
            exact absurd (hd ▸ List.prefix_refl q) (hd ▸ h2)
        · rintro ⟨k2, hk2, hd⟩
          exact ⟨k2, by simp [hk2], hd⟩
      have e2 : (q = [] ∨ ∃ k2 ∈ seen ++ [k], q ≠ k2.data ∧ q <+: k2.data) ↔
          (q = [] ∨ ∃ k2 ∈ seen, q ≠ k2.data ∧ q <+: k2.data) := by
        constructor
        · rintro (hq | ⟨k2, hk2, hne, hpre⟩)
          · exact Or.inl hq
          · rcases List.mem_append.mp hk2 with hin | hin
            · exact Or.inr ⟨k2, hin, hne, hpre⟩
            · rw [List.mem_singleton] at hin
              subst hin
              exact absurd hpre h2
        · rintro (hq | ⟨k2, hk2, hne, hpre⟩)
          · exact Or.inl hq
          · exact Or.inr ⟨k2, by simp [hk2], hne, hpre⟩
      simp only [e1, e2]

lemma lookupLeaf_foldl_add :
    ∀ (ks : List String) (t : KeywordTrie) (seen : List String),
      (∀ p, lookupLeaf t p = regOf seen p) →
      ∀ p, lookupLeaf (ks.foldl KeywordTrie.Add t) p =
        regOf (seen ++ ks) p := by
  intro ks
  induction ks with
  | nil =>
    intro t seen h p
    simpa using h p
  | cons k ks2 ih =>
    intro t seen h p
    rw [List.foldl_cons]
    have := ih (t.Add k) (seen ++ [k]) (lookupLeaf_add_step k t seen h) p
    simpa using this

/-- The leaf structure of a trie built from a keyword list. -/
lemma lookupLeaf_addAll (ks : List String) (p : List Char) :
    lookupLeaf (addAll ks) p = regOf ks p := by
  have := lookupLeaf_foldl_add ks emptyTrie [] lookupLeaf_emptyTrie p
  simpa [addAll] using this

lemma trieMatch_cons_some (c : Char) (rest : List Char) (t ch : KeywordTrie)
    (hfe : findEdge c t.edgesOf = some ch) :
    trieMatch (c :: rest) t =
      if trieMatch rest ch = "" then t.leafOf else trieMatch rest ch := by
  conv_lhs => unfold trieMatch
  rw [hfe]

lemma trieMatch_cons_none (c : Char) (rest : List Char) (t : KeywordTrie)
    (hfe : findEdge c t.edgesOf = none) :
    trieMatch (c :: rest) t = t.leafOf := by
  conv_lhs => unfold trieMatch
  rw [hfe]

lemma RegP_nil (t : KeywordTrie) : RegP t [] ↔ t.leafOf ≠ "" := by
  constructor
  · rintro ⟨t2, ht2, hne⟩
    have : t = t2 := Option.some.inj ht2
    rw [this]
    exact hne
  · intro h
    exact ⟨t, rfl, h⟩

lemma RegP_cons (c : Char) (q2 : List Char) (t ch : KeywordTrie)
    (hfe : findEdge c t.edgesOf = some ch) :
    RegP t (c :: q2) ↔ RegP ch q2 := by
  unfold RegP
  rw [show trieLookup (c :: q2) t = trieLookup q2 ch from by
    conv_lhs => unfold trieLookup
    rw [hfe]]

lemma RegP_cons_none (c : Char) (q2 : List Char) (t : KeywordTrie)
    (hfe : findEdge c t.edgesOf = none) : ¬ RegP t (c :: q2) := by
  unfold RegP
  rw [show trieLookup (c :: q2) t = none from by
    conv_lhs => unfold trieLookup
    rw [hfe]]
  rintro ⟨t2, ht2, _⟩
  exact Option.noConfusion ht2

lemma prefix_cons_cases (p : List Char) (c : Char) (rest : List Char)
    (h : p <+: c :: rest) : p = [] ∨ ∃ p2, p = c :: p2 ∧ p2 <+: rest := by
  cases p with
  | nil => exact Or.inl rfl
  | cons a p2 =>
    rw [List.cons_prefix_cons] at h
    exact Or.inr ⟨p2, by rw [h.1], h.2⟩

/-- What `Match` returns: `""` exactly when no keyword is recorded on a
prefix of the stream; otherwise the leaf of a deepest recorded prefix. -/
lemma trieMatch_spec :
    ∀ (s : List Char) (t : KeywordTrie),
      (trieMatch s t = "" → ∀ p, p <+: s → ¬ RegP t p) ∧
      (trieMatch s t ≠ "" →
        ∃ p t2, p <+: s ∧ trieLookup p t = some t2 ∧
          t2.leafOf = trieMatch s t ∧
          ∀ q, q <+: s → RegP t q → q.length ≤ p.length) := by
  intro s
  induction s with
  | nil =>
    intro t
    constructor
    · intro h p hp
      rw [List.prefix_nil] at hp
      subst hp
      rw [RegP_nil]
      intro hne
      exact hne h
    · intro h
      exact ⟨[], t, ⟨[], rfl⟩, rfl, rfl, fun q hq _ => by
        rw [List.prefix_nil] at hq
        simp [hq]⟩
  | cons c rest ih =>
    intro t
    cases hfe : findEdge c t.edgesOf with
    | none =>
      rw [trieMatch_cons_none c rest t hfe]
      constructor
      · intro h p hp
        rcases prefix_cons_cases p c rest hp with rfl | ⟨p2, rfl, _⟩
        · rw [RegP_nil]
          intro hne
          exact hne h
        · exact RegP_cons_none c p2 t hfe
      · intro h
        refine ⟨[], t, ⟨c :: rest, rfl⟩, rfl, rfl, fun q hq hr => ?_⟩
        rcases prefix_cons_cases q c rest hq with rfl | ⟨q2, rfl, _⟩
        · simp
        · exact absurd hr (RegP_cons_none c q2 t hfe)
    | some ch =>
      rw [trieMatch_cons_some c rest t ch hfe]
      by_cases hr : trieMatch rest ch = ""
      · rw [if_pos hr]
        have ihe := (ih ch).1 hr
        constructor
        · intro h p hp
          rcases prefix_cons_cases p c rest hp with rfl | ⟨p2, rfl, hp2⟩
          · rw [RegP_nil]
            intro hne
            exact hne h
          · rw [RegP_cons c p2 t ch hfe]
            exact ihe p2 hp2
        · intro h
          refine ⟨[], t, ⟨c :: rest, rfl⟩, rfl, rfl, fun q hq hreg => ?_⟩
          rcases prefix_cons_cases q c rest hq with rfl | ⟨q2, rfl, hq2⟩
          · simp
          · exact absurd ((RegP_cons c q2 t ch hfe).mp hreg) (ihe q2 hq2)
      · rw [if_neg hr]
        obtain ⟨p2, t2, hp2, hlk, hlf, hmax⟩ := (ih ch).2 hr
        constructor
        · intro h
          exact absurd h hr
        · intro _
          refine ⟨c :: p2, t2, List.cons_prefix_cons.mpr ⟨rfl, hp2⟩, ?_, hlf,
            fun q hq hreg => ?_⟩
          · rw [show trieLookup (c :: p2) t = trieLookup p2 ch from by
              conv_lhs => unfold trieLookup
              rw [hfe]]
            exact hlk
          · rcases prefix_cons_cases q c rest hq with rfl | ⟨q2, rfl, hq2⟩
            · simp
            · have := hmax q2 hq2 ((RegP_cons c q2 t ch hfe).mp hreg)
              simpa using Nat.succ_le_succ this

lemma string_mk_data (k : String) : String.mk k.data = k := rfl

lemma lookupLeaf_addAll_ne_empty (ks : List String) (p : List Char)
    (s : String) (h : lookupLeaf (addAll ks) p = some s) (hs : s ≠ "") :
    ∃ k ∈ ks, k.data = p ∧ s = k := by
  have hr := lookupLeaf_addAll ks p
  rw [h] at hr
  unfold regOf at hr
  by_cases h1 : ∃ k ∈ ks, k.data = p
  · rw [if_pos h1] at hr
    obtain ⟨k, hk, hd⟩ := h1
    refine ⟨k, hk, hd, ?_⟩
    rw [Option.some.inj hr, ← hd, string_mk_data]
  · rw [if_neg h1] at hr
    by_cases h2 : p = [] ∨ ∃ k ∈ ks, p ≠ k.data ∧ p <+: k.data
    · rw [if_pos h2] at hr
      exact absurd (Option.some.inj hr) hs
    · rw [if_neg h2] at hr
      exact Option.noConfusion hr

lemma RegP_addAll_of_mem (ks : List String) (hne : ∀ k ∈ ks, k ≠ "")
    (k : String) (hk : k ∈ ks) : RegP (addAll ks) k.data := by
  have hr := lookupLeaf_addAll ks k.data
  unfold regOf at hr
  rw [if_pos ⟨k, hk, rfl⟩] at hr
  unfold lookupLeaf at hr
  cases hlk : trieLookup k.data (addAll ks) with
  | none =>
    rw [hlk] at hr
    exact Option.noConfusion hr
  | some t2 =>
    rw [hlk] at hr
    refine ⟨t2, hlk, ?_⟩
    rw [show t2.leafOf = String.mk k.data from Option.some.inj hr,
      string_mk_data]
    exact hne k hk

/-- C3: for every set of non-empty keywords added to a `KeywordTrie`
and every codepoint stream, `Match` returns the longest added keyword
that is a prefix of the stream, and `""` when no added keyword is a
prefix of the stream. -/
theorem trie_match_longest_keyword (ks : List String)
    (hne : ∀ k ∈ ks, k ≠ "") (s : List Char) :
    ((addAll ks).Match s = "" ∧ ∀ k ∈ ks, ¬ (k.data <+: s)) ∨
    ((addAll ks).Match s ∈ ks ∧ ((addAll ks).Match s).data <+: s ∧
      ∀ k ∈ ks, k.data <+: s →
        k.data.length ≤ ((addAll ks).Match s).data.length) := by
  unfold KeywordTrie.Match
  by_cases h : trieMatch s (addAll ks) = ""
  · left
    refine ⟨h, fun k hk hpre => ?_⟩
    exact (trieMatch_spec s (addAll ks)).1 h k.data hpre
      (RegP_addAll_of_mem ks hne k hk)
  · right
    obtain ⟨p, t2, hp, hlk, hlf, hmax⟩ := (trieMatch_spec s (addAll ks)).2 h
    have hl : lookupLeaf (addAll ks) p = some t2.leafOf := by
      unfold lookupLeaf
      rw [hlk]
      rfl
    obtain ⟨k, hk, hd, hs⟩ :=
      lookupLeaf_addAll_ne_empty ks p t2.leafOf hl (by rw [hlf]; exact h)
    have hm : trieMatch s (addAll ks) = k := by rw [← hlf, hs]
    refine ⟨hm ▸ hk, ?_, fun k2 hk2 hpre => ?_⟩
    · rw [hm, hd]
      exact hp
    · have := hmax k2.data hpre (RegP_addAll_of_mem ks hne k2 hk2)
      rw [hm, hd]
      exact this

/-- Witness for C3: with `<` and `<=` both registered, `Match` against
`"<= 3"` returns `"<="` — the longest registered prefix wins over its
own registered strict prefix. -/
theorem trie_match_longest_keyword_witness :
    (∀ k ∈ (["<", "<="] : List String), k ≠ "") ∧
    (((addAll ["<", "<="]).Match ("<= 3".data) = "" ∧
      ∀ k ∈ (["<", "<="] : List String), ¬ (k.data <+: "<= 3".data)) ∨
     ((addAll ["<", "<="]).Match ("<= 3".data) ∈ (["<", "<="] : List String) ∧
      ((addAll ["<", "<="]).Match ("<= 3".data)).data <+: "<= 3".data ∧
      ∀ k ∈ (["<", "<="] : List String), k.data <+: "<= 3".data →
        k.data.length ≤
          ((addAll ["<", "<="]).Match ("<= 3".data)).data.length)) ∧
    (addAll ["<", "<="]).MatchStr "<= 3" = "<=" :=
  ⟨by decide,
    trie_match_longest_keyword ["<", "<="] (by decide) ("<= 3".data), rfl⟩

/-! ## Claim C10 -/

lemma leafOf_Add (t : KeywordTrie) (k : String) (h : t.leafOf = "") :
    (t.Add k).leafOf = "" := by
  unfold KeywordTrie.Add
  cases hk : k.data with
  | nil =>
    show k = ""
    rw [← string_mk_data k, hk]
  | cons c kr =>
    show t.leafOf = ""
    exact h

/-- `Add` never records a keyword at the root: the root leaf stays
`""`. -/
lemma leafOf_foldl_add :
    ∀ (ks : List String) (t : KeywordTrie), t.leafOf = "" →
      (ks.foldl KeywordTrie.Add t).leafOf = "" := by
  intro ks
  induction ks with
  | nil => intro t h; exact h
  | cons k ks2 ih =>
    intro t h
    rw [List.foldl_cons]
    exact ih (t.Add k) (leafOf_Add t k h)

/-- C10: for every `KeywordTrie` built by any sequence of `Add` calls —
including a freshly constructed one — `Contains("")` is `true`:
`Match` on the empty stream returns the root's recorded leaf, which is
always `""`, and `Contains` compares that match result against its
argument; `Count` never counts the empty string. -/
theorem trie_contains_empty_string :
    (∀ ks : List String, (addAll ks).Contains "" = true) ∧
    (∀ ks : List String, (addAll ks).Match [] = (addAll ks).leafOf) ∧
    (∀ ks : List String, (addAll ks).leafOf = "") ∧
    (∀ ks : List String, (addAll ("" :: ks)).Count = (addAll ks).Count) ∧
    emptyTrie.Contains "" = true ∧
    emptyTrie.Count = 0 := by
  have hleaf : ∀ ks : List String, (addAll ks).leafOf = "" :=
    fun ks => leafOf_foldl_add ks emptyTrie rfl
  refine ⟨fun ks => ?_, fun ks => rfl, hleaf, fun ks => rfl, rfl, ?_⟩
  · unfold KeywordTrie.Contains
    rw [show ("" : String).data = [] from rfl,
      show (addAll ks).Match [] = (addAll ks).leafOf from rfl, hleaf ks]
    simp
  · simp [KeywordTrie.Count, emptyTrie]
